import Mathlib

set_option maxHeartbeats 1000000

/- Shallow embedding of the masque-vpn data-plane core: the XOR FEC codec
(common/fec), the TUN→tunnel pump sequence numbering (common/proxy.go),
the IP pool (common ip utilities), the IP header parser, the client-side
CONNECT-IP negotiation check, and the server /vpn handler decision flow.
Bytes are modelled as `Nat` (values kept below 256 by the operations that
produce them, with explicit `% 256` where the Go code truncates to a byte);
Go slices become `List`; fallible operations return `Except`/`Option`. -/

abbrev Byte := Nat

abbrev Packet := List Byte

instance {ε α : Type} [DecidableEq ε] [DecidableEq α] : DecidableEq (Except ε α) :=
  fun x y =>
  match x, y with
  | Except.ok a, Except.ok b =>
    if h : a = b then Decidable.isTrue (by rw [h])
    else Decidable.isFalse (by intro hc; cases hc; exact h rfl)
  | Except.error e, Except.error f =>
    if h : e = f then Decidable.isTrue (by rw [h])
    else Decidable.isFalse (by intro hc; cases hc; exact h rfl)
  | Except.ok _, Except.error _ => Decidable.isFalse (by intro hc; cases hc)
  | Except.error _, Except.ok _ => Decidable.isFalse (by intro hc; cases hc)

/-- Read byte `i` of a packet, 0 beyond its end (Go reads are always
in range at the call sites embedded here; the 0 default makes
`xorInto` below agree with the Go in-place loop). -/
def byteAt (p : Packet) (i : Nat) : Byte := p.getD i 0

/-- In-place XOR loop `for i < len(pkt) { acc[i] ^= pkt[i] }` from
`xorPackets` / `xorPacketsWithRedundancy`.  Faithful whenever
`pkt.length ≤ acc.length`, which holds at every call site (packets are
never longer than the accumulator they are folded into). -/
def xorInto (acc pkt : Packet) : Packet :=
  (List.range acc.length).map fun i => byteAt acc i ^^^ byteAt pkt i

/-- Result of `make([]byte, n)` followed by `copy` from `p`:
`p` truncated or zero-padded to length `n`. -/
def zeroPad (n : Nat) (p : Packet) : Packet :=
  p.take n ++ List.replicate (n - p.length) 0

/-- Running maximum of packet lengths, seed `a`
(the `maxSize` loops of the encoder and the decoder). -/
def maxLenFrom (a : Nat) (l : List Packet) : Nat :=
  l.foldl (fun m p => max m p.length) a

namespace Fec

/-- FEC configuration (common/fec/fec.go `Config`).  Go stores signed ints;
`Config.Validate` rejects negative values, so `Nat` fields model exactly
the values any validated configuration can hold. -/
structure Config where
  redundancyPercent : Nat
  blockSize : Nat
deriving DecidableEq, Repr

/-- Model of `Config.Validate` returning no error (the `< 0` checks of the Go code
cannot fire on `Nat`). -/
def Config.validateOk (c : Config) : Bool :=
  decide (c.redundancyPercent ≤ 100) && decide (0 < c.blockSize) &&
    decide (c.blockSize ≤ 255)

/-- Model of `Config.CalculateRedundancyPackets`. -/
def Config.calculateRedundancyPackets (c : Config) (dataPackets : Nat) : Nat :=
  if c.redundancyPercent = 0 then 0
  else
    let redundancy := dataPackets * c.redundancyPercent / 100
    if redundancy = 0 then 1 else redundancy

/-- Model of `XOREncoder.xorPackets`: length-prefix header followed by the byte-wise
XOR of the block's packets; `none` for an empty block or when every packet
in the block is empty (`maxSize == 0`), mirroring the `nil` returns. -/
def xorPackets (packets : List Packet) : Option Packet :=
  if packets.isEmpty then none
  else
    let maxSize := maxLenFrom 0 packets
    if maxSize = 0 then none
    else
      let header := packets.length % 256 ::
        (packets.flatMap fun p => [p.length / 256 % 256, p.length % 256])
      let body := packets.foldl xorInto (List.replicate maxSize 0)
      some (header ++ body)

/-- Model of `XOREncoder.Encode`.  The Go method also returns an error that is
always nil, so the embedding is total. -/
def Encode (c : Config) (packets : List Packet) : List Packet :=
  if packets.isEmpty then packets
  else if c.calculateRedundancyPackets packets.length = 0 then packets
  else
    let numBlocks := (packets.length + c.blockSize - 1) / c.blockSize
    packets ++ (List.range numBlocks).filterMap fun blockIdx =>
      xorPackets ((packets.drop (blockIdx * c.blockSize)).take c.blockSize)

/-- Model of `XORDecoder.xorPacketsWithRedundancy`. -/
def xorPacketsWithRedundancy (availablePackets : List Packet)
    (redundancyPacket : Packet) (headerSize originalLen : Nat) : Option Packet :=
  if redundancyPacket.length < headerSize then none
  else
    let maxSize := maxLenFrom originalLen availablePackets
    let redundancyData := redundancyPacket.drop headerSize
    let result := availablePackets.foldl xorInto
      (zeroPad maxSize (redundancyData.take (min redundancyData.length maxSize)))
    some (result.take originalLen)

/-- Per-index body of `XORDecoder.Decode`'s per-block recovery: the checks
and the recovery attempt the Go loop performs for a block whose single
lost index is `lostIdx`. -/
def tryRecover (c : Config) (packets : List (Option Packet)) (lostIdx : Nat) :
    Option Packet :=
  let blockIdx := lostIdx / c.blockSize
  let blockStart := blockIdx * c.blockSize
  let blockEnd := min (blockStart + c.blockSize) packets.length
  let numDataPackets := packets.length - packets.length / (c.blockSize + 1)
  let redundancyIdx := numDataPackets + blockIdx
  match packets.getD redundancyIdx none with
  | none => none
  | some redundancyPacket =>
    if redundancyPacket.length < 1 then none
    else
      let numPacketsInBlock := byteAt redundancyPacket 0
      let headerSize := 1 + numPacketsInBlock * 2
      if redundancyPacket.length < headerSize then none
      else
        let lostPacketIndexInBlock := lostIdx - blockStart
        if numPacketsInBlock ≤ lostPacketIndexInBlock then none
        else
          let off := 1 + lostPacketIndexInBlock * 2
          let originalLen :=
            byteAt redundancyPacket off <<< 8 ||| byteAt redundancyPacket (off + 1)
          let availablePackets :=
            ((List.range' blockStart (blockEnd - blockStart)).filter
              (fun j => j ≠ lostIdx)).filterMap fun j => packets.getD j none
          xorPacketsWithRedundancy availablePackets redundancyPacket
            headerSize originalLen

/-- Model of `XORDecoder.Decode`.  Returns the pair (recovered slice, error); the Go
function has no error path, so the second component is always `none`.
With an empty `lost` list it returns the empty slice; otherwise a slice of
`packets.length` entries holding recovered packets at recovered lost
indices and `nil` everywhere else.  The Go code groups `lost` by block id
and recovers a block only when its group has exactly one entry; entry `i`
of the result is therefore recovered exactly when the lost entries falling
in `i`'s block are `[i]`. -/
def Decode (c : Config) (packets : List (Option Packet)) (lost : List Nat) :
    List (Option Packet) × Option String :=
  if lost.isEmpty then ([], none)
  else
    ((List.range packets.length).map fun i =>
      if lost.filter (fun j => j / c.blockSize = i / c.blockSize) = [i] then
        tryRecover c packets i
      else none,
     none)

end Fec

/- IP pool and address helpers (common ip utilities).  IPv4 addresses are
modelled as `Nat` values below 2^32; `netip.Prefix` becomes an
(address, bit-length) pair. -/

/-- Model of `nextIP`: byte-wise increment with carry, i.e. +1 modulo 2^32 on a
4-byte address. -/
def nextIP (a : Nat) : Nat := (a + 1) % 2 ^ 32

/-- Model of `LastIP` on an IPv4 prefix: OR every host bit into the address. -/
def lastIP (addr bits : Nat) : Nat := addr ||| (2 ^ (32 - bits) - 1)

/-- Model of `IPPool`: free list plus allocated map (client id per address).
The Go map is modelled as an association list. -/
structure IPPool where
  pfxAddr : Nat
  pfxBits : Nat
  gateway : Nat
  allocated : List (Nat × String)
  available : List Nat
deriving DecidableEq, Repr

/-- Model of `NewIPPool`: walk from the address after the network address up to
`LastIP` inclusive, skipping the gateway and the network address (the
broadcast address is NOT skipped).  The Go loop steps by `nextIP`; no
pool prefix wraps around 2^32, so a contiguous range is faithful. -/
def NewIPPool (pfxAddr pfxBits gateway : Nat) : IPPool :=
  let last := lastIP pfxAddr pfxBits
  let start := nextIP pfxAddr
  { pfxAddr := pfxAddr
    pfxBits := pfxBits
    gateway := gateway
    allocated := []
    available := (List.range' start (last + 1 - start)).filter
      fun ip => ip ≠ gateway && ip ≠ pfxAddr }

/-- Model of `IPPool.Allocate`: pop the head of the free list and return it as a
prefix of bit-length 32; with an empty free list, fail and leave the pool
unchanged. -/
def IPPool.Allocate (p : IPPool) (clientID : String) :
    Except String (Nat × Nat) × IPPool :=
  match p.available with
  | [] => (Except.error "no available IP addresses", p)
  | ip :: rest =>
    (Except.ok (ip, 32),
     { p with available := rest, allocated := (ip, clientID) :: p.allocated })

/-- Model of `IPPool.Release`: return the address to the TAIL of the free list iff
it is currently allocated; otherwise a no-op. -/
def IPPool.Release (p : IPPool) (ip : Nat) : IPPool :=
  if (p.allocated.lookup ip).isSome then
    { p with allocated := p.allocated.filter (fun e => e.1 ≠ ip),
             available := p.available ++ [ip] }
  else p

/- IP header parsing (GetIPAddresses / GetSourceIP / GetDestinationIP).
The embedding distinguishes a Go panic (out-of-range index or slice)
from an error return: the outer `Option` is `none` exactly when the Go
code would panic, `some (Except.error e)` when it returns an error, and
`some (Except.ok (src, dst))` on success. -/

/-- Model of the Go slice expression `p[lo:hi]`: panics (modelled `none`) unless
`lo ≤ hi ≤ len(p)`. -/
def sliceGo (p : List Byte) (lo hi : Nat) : Option (List Byte) :=
  if lo ≤ hi ∧ hi ≤ p.length then some ((p.drop lo).take (hi - lo)) else none

/-- Model of `netip.AddrFromSlice`: succeeds exactly on 4- and 16-byte slices. -/
def addrFromSlice (s : List Byte) : Option (List Byte) :=
  if s.length = 4 ∨ s.length = 16 then some s else none

/-- Model of `GetIPAddresses`: extract source and destination addresses from an IP
packet given its claimed `length`. -/
def GetIPAddresses (packet : List Byte) (length : Nat) :
    Option (Except String (List Byte × List Byte)) :=
  if length < 20 then some (Except.error "packet length too short") else
  match packet.get? 0 with
  | none => none
  | some b0 =>
    let version := b0 >>> 4
    if version = 4 then
      if length < 20 then some (Except.error "IPv4 packet too short") else
      match sliceGo packet 12 16, sliceGo packet 16 20 with
      | some s, some d =>
        match addrFromSlice s, addrFromSlice d with
        | some srcIP, some dstIP => some (Except.ok (srcIP, dstIP))
        | none, _ => some (Except.error "invalid source IPv4 address")
        | some _, none => some (Except.error "invalid destination IPv4 address")
      | _, _ => none
    else if version = 6 then
      if length < 40 then some (Except.error "IPv6 packet too short") else
      match sliceGo packet 8 24, sliceGo packet 24 40 with
      | some s, some d =>
        match addrFromSlice s, addrFromSlice d with
        | some srcIP, some dstIP => some (Except.ok (srcIP, dstIP))
        | none, _ => some (Except.error "invalid source IPv6 address")
        | some _, none => some (Except.error "invalid destination IPv6 address")
      | _, _ => none
    else some (Except.error "unsupported IP version")

/-- Model of `GetSourceIP`: projection of `GetIPAddresses`. -/
def GetSourceIP (packet : List Byte) (length : Nat) :
    Option (Except String (List Byte)) :=
  match GetIPAddresses packet length with
  | none => none
  | some (Except.error e) => some (Except.error e)
  | some (Except.ok (src, _)) => some (Except.ok src)

/-- Model of `GetDestinationIP`: projection of `GetIPAddresses`. -/
def GetDestinationIP (packet : List Byte) (length : Nat) :
    Option (Except String (List Byte)) :=
  match GetIPAddresses packet length with
  | none => none
  | some (Except.error e) => some (Except.error e)
  | some (Except.ok (_, dst)) => some (Except.ok dst)

/- Client-side CONNECT-IP negotiation (common/masque_connectip.go,
`MASQUEClient.ConnectIP`): after writing the CONNECT request the client
reads the response text and accepts iff it contains "200" or "OK" as a
substring; otherwise it closes the stream and returns an error (the
Protocol kind of the error taxonomy). -/

inductive NegotiationOutcome where
  | established : NegotiationOutcome
  | failed (streamClosed : Bool) (message : String) : NegotiationOutcome
deriving DecidableEq, Repr

/-- Model of `strings.Contains(hay, needle)`: substring containment. -/
def stringContains (hay needle : List Char) : Bool := decide (needle <:+: hay)

/-- The response check of `MASQUEClient.ConnectIP` (the response text is
modelled as the list of its characters). -/
def connectIPCheckResponse (response : List Char) : NegotiationOutcome :=
  if !(stringContains response "200".toList) && !(stringContains response "OK".toList) then
    NegotiationOutcome.failed true
      ("MASQUE CONNECT request failed: " ++ String.mk response)
  else NegotiationOutcome.established

/- Tun→Tunnel pump (common/proxy.go, `ProxyFromTunToVPN` with FEC enabled,
and `EncodeAndSendBlock`).  The pump batches TUN reads; each packet is
appended to the pending buffer, a full buffer is encoded and written out,
and a non-empty partial buffer is flushed after every batch.  Every frame
written to the tunnel is `[seq: u32 big-endian][payload]`; the uint32
counter `seqNum` is incremented (wrapping at 2^32) once per written
frame and is never reset during the pump's lifetime. -/

def uint32Mod : Nat := 2 ^ 32

/-- The write loop of `EncodeAndSendBlock`: emit one frame per encoded
packet, tagging it with the current counter value and stepping the
counter as a uint32.  Returns the final counter and the emitted
(seq, payload) frames in order. -/
def sendFrames (seq : Nat) : List Packet → Nat × List (Nat × Packet)
  | [] => (seq, [])
  | p :: rest =>
    let next := sendFrames ((seq + 1) % uint32Mod) rest
    (next.1, (seq, p) :: next.2)

/-- Model of `EncodeAndSendBlock`: encode the pending buffer and write each
produced packet with a sequence-number header. -/
def EncodeAndSendBlock (c : Fec.Config) (seq : Nat) (packets : List Packet) :
    Nat × List (Nat × Packet) :=
  sendFrames seq (Fec.Encode c packets)

/-- State of one Tun→Tunnel pump: the uint32 sequence counter, the pending
FEC buffer, and (for specification purposes) the frames written so far. -/
structure PumpState where
  seqNum : Nat
  packetBuffer : List Packet
  written : List (Nat × Packet)
deriving DecidableEq, Repr

/-- Per-packet step of `ProxyFromTunToVPN` (FEC path): copy the packet
into the pending buffer; encode and send when the buffer reaches
`BlockSize`. -/
def pumpPacket (c : Fec.Config) (st : PumpState) (pkt : Packet) : PumpState :=
  let buf := st.packetBuffer ++ [pkt]
  if c.blockSize ≤ buf.length then
    let sent := EncodeAndSendBlock c st.seqNum buf
    { seqNum := sent.1, packetBuffer := [], written := st.written ++ sent.2 }
  else { st with packetBuffer := buf }

/-- Per-batch step of `ProxyFromTunToVPN`: process each packet of the
batch, then flush a non-empty partial buffer through the encoder. -/
def pumpBatch (c : Fec.Config) (st : PumpState) (batch : List Packet) : PumpState :=
  let st1 := batch.foldl (pumpPacket c) st
  if st1.packetBuffer.isEmpty then st1
  else
    let sent := EncodeAndSendBlock c st1.seqNum st1.packetBuffer
    { seqNum := sent.1, packetBuffer := [], written := st1.written ++ sent.2 }

/-- A whole pump run over a sequence of TUN read batches, starting from
the initial state (`var seqNum uint32` zero value, empty buffer). -/
def pumpRun (c : Fec.Config) (batches : List (List Packet)) : PumpState :=
  batches.foldl (pumpBatch c) ⟨0, [], []⟩

/- Server /vpn handler (vpn_server/internal/server/server.go, the handler
registered with `mux.HandleFunc` in `Server.Run`).  Control flow: missing
client certificate → 401; CommonName not in the client registry → 401;
`connectip.ParseRequest` failure → 400; then `p.Proxy(w, req)` WRITES THE
SUCCESS RESPONSE and hands over the byte transport; only after that does
the handler allocate an IP, and on exhaustion it logs and closes the
connection without writing any further status. -/

structure VpnRequest where
  hasClientCert : Bool
  certCN : String
  inRegistry : Bool
  parseOk : Bool
  proxyOk : Bool
deriving DecidableEq, Repr

inductive VpnOutcome where
  /-- Status written by `http.Error` before the proxy is established. -/
  | respond (status : Nat) : VpnOutcome
  /-- Proxy establishment failed: the handler returns with no session. -/
  | proxyFailed : VpnOutcome
  /-- Allocation failed after the proxy replied: the connection is
  closed; the client has already received the success status. -/
  | exhaustedClosed : VpnOutcome
  /-- A session is created for the allocated address. -/
  | session (addr : Nat) (pool : IPPool) : VpnOutcome
deriving DecidableEq, Repr

/-- Decision flow of the registered /vpn handler. -/
def vpnHandler (req : VpnRequest) (pool : IPPool) : VpnOutcome :=
  if !req.hasClientCert then VpnOutcome.respond 401
  else if !req.inRegistry then VpnOutcome.respond 401
  else if !req.parseOk then VpnOutcome.respond 400
  else if !req.proxyOk then VpnOutcome.proxyFailed
  else
    match pool.Allocate req.certCN with
    | (Except.error _, _) => VpnOutcome.exhaustedClosed
    | (Except.ok pfx, pool2) => VpnOutcome.session pfx.1 pool2

/-- HTTP status the client observes for each outcome (`p.Proxy` writes
the CONNECT-IP success response when it succeeds, so the exhaustion path
has already sent the success status before closing). -/
def statusSentToClient : VpnOutcome → Option Nat
  | VpnOutcome.respond s => some s
  | VpnOutcome.proxyFailed => none
  | VpnOutcome.exhaustedClosed => some 200
  | VpnOutcome.session _ _ => some 200

/- Specification-level encoder (§4.2 of the spec): blocks of `block_size`
packets, one redundancy packet per block consisting of the header
`[n: u8][len_1: u16] … [len_n: u16]` followed by the byte-wise XOR of the
block's packets zero-padded to the maximum packet length of the block.
These definitions follow the spec's words and are compared with the
source-derived `Fec.Encode` in the refinement theorem. -/

def specBlocks (c : Fec.Config) (b : List Packet) : List (List Packet) :=
  (List.range ((b.length + c.blockSize - 1) / c.blockSize)).map fun j =>
    (b.drop (j * c.blockSize)).take c.blockSize

def specRedundancy (blk : List Packet) : Packet :=
  blk.length % 256 ::
    (blk.flatMap fun p => [p.length % 65536 / 256, p.length % 256]) ++
    (List.range ((blk.map List.length).foldr max 0)).map fun t =>
      (blk.map fun p => byteAt p t).foldr (· ^^^ ·) 0

def specEncode (c : Fec.Config) (b : List Packet) : List Packet :=
  b ++ (specBlocks c b).map specRedundancy

/- Supporting lemmas about the byte-level XOR operations. -/

theorem length_xorInto (acc p : Packet) : (xorInto acc p).length = acc.length := by
  simp [xorInto]

theorem byteAt_xorInto (acc p : Packet) {t : Nat} (h : t < acc.length) :
    byteAt (xorInto acc p) t = byteAt acc t ^^^ byteAt p t := by
  simp [xorInto, byteAt, List.getD_eq_getElem?_getD, List.getElem?_map,
    List.getElem?_range, h]

theorem foldl_xor_from (l : List Nat) (a : Nat) :
    l.foldl (· ^^^ ·) a = a ^^^ l.foldl (· ^^^ ·) 0 := by
  induction l generalizing a with
  | nil => simp
  | cons x l ih =>
    simp only [List.foldl_cons]
    rw [ih (a ^^^ x), ih (0 ^^^ x), Nat.zero_xor, Nat.xor_assoc]

theorem length_foldl_xorInto (l : List Packet) (acc : Packet) :
    (l.foldl xorInto acc).length = acc.length := by
  induction l generalizing acc with
  | nil => rfl
  | cons p l ih => simp [List.foldl_cons, ih, length_xorInto]

theorem byteAt_foldl_xorInto (l : List Packet) (acc : Packet) {t : Nat}
    (h : t < acc.length) :
    byteAt (l.foldl xorInto acc) t =
      byteAt acc t ^^^ (l.map (fun p => byteAt p t)).foldl (· ^^^ ·) 0 := by
  induction l generalizing acc with
  | nil => simp
  | cons p l ih =>
    simp only [List.foldl_cons, List.map_cons]
    rw [ih (xorInto acc p) (by rw [length_xorInto]; exact h),
      byteAt_xorInto acc p h, foldl_xor_from _ (0 ^^^ byteAt p t),
      Nat.zero_xor, Nat.xor_assoc]

theorem xorFold_cancel (pre suf : List Nat) (x : Nat) :
    ((pre ++ x :: suf).foldl (· ^^^ ·) 0) ^^^ ((pre ++ suf).foldl (· ^^^ ·) 0)
      = x := by
  rw [List.foldl_append, List.foldl_append, List.foldl_cons]
  generalize pre.foldl (· ^^^ ·) 0 = a
  rw [foldl_xor_from suf (a ^^^ x), foldl_xor_from suf a]
  generalize suf.foldl (· ^^^ ·) 0 = b
  have h1 : a ^^^ x ^^^ b = x ^^^ (a ^^^ b) := by
    rw [Nat.xor_comm a x, Nat.xor_assoc]
  rw [h1, Nat.xor_assoc, Nat.xor_self, Nat.xor_zero]

theorem shiftLeft_or_byte (hi lo : Nat) (h : lo < 256) :
    hi <<< 8 ||| lo = hi * 256 + lo := by
  rw [Nat.shiftLeft_eq, Nat.mul_comm hi (2 ^ 8), ← Nat.mul_add_lt_is_or h hi]

/- Supporting lemmas about `maxLenFrom`. -/

theorem maxLenFrom_eq_max (l : List Packet) (a : Nat) :
    maxLenFrom a l = max a (maxLenFrom 0 l) := by
  induction l generalizing a with
  | nil => simp [maxLenFrom]
  | cons p l ih =>
    simp only [maxLenFrom, List.foldl_cons] at *
    rw [ih (max a p.length), ih (max 0 p.length)]
    omega

theorem maxLenFrom_append (l1 l2 : List Packet) (a : Nat) :
    maxLenFrom a (l1 ++ l2) = max (maxLenFrom a l1) (maxLenFrom 0 l2) := by
  have h : maxLenFrom a (l1 ++ l2) = maxLenFrom (maxLenFrom a l1) l2 := by
    simp [maxLenFrom, List.foldl_append]
  rw [h, maxLenFrom_eq_max l2]

theorem maxLenFrom_cons (p : Packet) (l : List Packet) :
    maxLenFrom 0 (p :: l) = max p.length (maxLenFrom 0 l) := by
  have h : maxLenFrom 0 (p :: l) = maxLenFrom (max 0 p.length) l := rfl
  rw [h, maxLenFrom_eq_max l]
  omega

theorem maxLenFrom_middle (pre suf : List Packet) (x : Packet) :
    maxLenFrom x.length (pre ++ suf) = maxLenFrom 0 (pre ++ x :: suf) := by
  rw [maxLenFrom_append, maxLenFrom_append, maxLenFrom_cons,
    maxLenFrom_eq_max pre x.length]
  omega

theorem le_maxLenFrom (l : List Packet) (a : Nat) : a ≤ maxLenFrom a l := by
  rw [maxLenFrom_eq_max]; omega

theorem length_le_maxLenFrom {p : Packet} : ∀ {l : List Packet}, p ∈ l →
    ∀ a : Nat, p.length ≤ maxLenFrom a l
  | q :: l, h, a => by
    rcases List.mem_cons.mp h with rfl | h2
    · calc p.length ≤ max a p.length := Nat.le_max_right _ _
        _ ≤ maxLenFrom (max a p.length) l := le_maxLenFrom l _
        _ = maxLenFrom a (p :: l) := rfl
    · calc p.length ≤ maxLenFrom (max a q.length) l := length_le_maxLenFrom h2 _
        _ = maxLenFrom a (q :: l) := rfl

/- Generic list lemmas used to line up the encoder and the decoder. -/

theorem filterMap_eq_map_of_some {α β : Type} (f : α → Option β) (g : α → β)
    (l : List α) (h : ∀ x ∈ l, f x = some (g x)) :
    l.filterMap f = l.map g := by
  induction l with
  | nil => rfl
  | cons x l ih =>
    rw [List.filterMap_cons, h x (List.mem_cons_self x l), List.map_cons,
      ih fun y hy => h y (List.mem_cons_of_mem x hy)]

theorem flatMap_pair_length (f g : Packet → Nat) (l : List Packet) :
    (l.flatMap fun p => [f p, g p]).length = 2 * l.length := by
  induction l with
  | nil => rfl
  | cons p l ih => simp [List.flatMap_cons, ih]; omega

theorem flatMap_pair_getD_left (f g : Packet → Nat) (l : List Packet)
    {m : Nat} (h : m < l.length) :
    (l.flatMap fun p => [f p, g p]).getD (2 * m) 0 = f (l.getD m []) := by
  induction l generalizing m with
  | nil => cases h
  | cons p l ih =>
    cases m with
    | zero => rfl
    | succ m =>
      have : 2 * (m + 1) = (2 * m) + 1 + 1 := by omega
      simp only [List.flatMap_cons, this, List.cons_append, List.getD_cons_succ,
        List.nil_append]
      exact ih (by simpa using h)

theorem flatMap_pair_getD_right (f g : Packet → Nat) (l : List Packet)
    {m : Nat} (h : m < l.length) :
    (l.flatMap fun p => [f p, g p]).getD (2 * m + 1) 0 = g (l.getD m []) := by
  induction l generalizing m with
  | nil => cases h
  | cons p l ih =>
    cases m with
    | zero => rfl
    | succ m =>
      have : 2 * (m + 1) + 1 = (2 * m + 1) + 1 + 1 := by omega
      simp only [List.flatMap_cons, this, List.cons_append, List.getD_cons_succ,
        List.nil_append]
      exact ih (by simpa using h)

theorem getD_map_range' (f : Nat → Packet) (s : Nat) {m n : Nat} (h : m < n)
    (d : Packet) : ((List.range' s n).map f).getD m d = f (s + m) := by
  simp [List.getD_eq_getElem?_getD, List.getElem?_map, List.getElem?_range' s 1 h]

theorem getD_map_range'_opt (f : Nat → Option Packet) (s : Nat) {m n : Nat}
    (h : m < n) (d : Option Packet) :
    ((List.range' s n).map f).getD m d = f (s + m) := by
  simp [List.getD_eq_getElem?_getD, List.getElem?_map, List.getElem?_range' s 1 h]

theorem block_eq_map_range (b : List Packet) (s n : Nat) (h : s + n ≤ b.length) :
    (b.drop s).take n = (List.range' s n).map fun j => b.getD j [] := by
  induction n generalizing s with
  | zero => simp
  | succ n ih =>
    rw [List.range'_succ, List.map_cons,
      List.drop_eq_getElem_cons (show s < b.length by omega)]
    simp only [List.take_succ_cons, List.cons.injEq]
    constructor
    · rw [List.getD_eq_getElem?_getD, List.getElem?_eq_getElem (by omega)]
      rfl
    · exact ih (s + 1) (by omega)


theorem foldr_xor_eq_foldl (l : List Nat) :
    l.foldr (· ^^^ ·) 0 = l.foldl (· ^^^ ·) 0 := by
  induction l with
  | nil => rfl
  | cons x l ih =>
    rw [List.foldr_cons, List.foldl_cons, ih, foldl_xor_from l (0 ^^^ x),
      Nat.zero_xor]

theorem foldr_max_eq_maxLenFrom (l : List Packet) :
    (l.map List.length).foldr max 0 = maxLenFrom 0 l := by
  induction l with
  | nil => rfl
  | cons p l ih => rw [List.map_cons, List.foldr_cons, ih, maxLenFrom_cons]

theorem length_specRedundancy (blk : List Packet) :
    (specRedundancy blk).length = 1 + 2 * blk.length + maxLenFrom 0 blk := by
  simp [specRedundancy, flatMap_pair_length (fun p => p.length % 65536 / 256)
    (fun p => p.length % 256) blk, foldr_max_eq_maxLenFrom]
  omega

/-- The source redundancy packet coincides with the spec's redundancy
packet on every block that contains at least one non-empty packet. -/
theorem xorPackets_eq_spec (blk : List Packet) (hne : blk ≠ [])
    (hmax : 0 < maxLenFrom 0 blk) :
    Fec.xorPackets blk = some (specRedundancy blk) := by
  rw [Fec.xorPackets]
  rw [if_neg (by simpa [List.isEmpty_iff] using hne)]
  simp only
  rw [if_neg (by omega)]
  refine congrArg some ?_
  rw [specRedundancy, List.cons_append]
  refine congrArg₂ _ rfl ?_
  refine congrArg₂ _ ?_ ?_
  · refine congrArg _ (funext fun p => ?_)
    have hp : p.length / 256 % 256 = p.length % 65536 / 256 := by omega
    rw [hp]
  · rw [foldr_max_eq_maxLenFrom]
    refine List.ext_getElem ?_ fun t h1 h2 => ?_
    · rw [length_foldl_xorInto, List.length_replicate, List.length_map,
        List.length_range]
    · rw [length_foldl_xorInto, List.length_replicate] at h1
      have hby := byteAt_foldl_xorInto blk (List.replicate (maxLenFrom 0 blk) 0)
        (t := t) (by simpa using h1)
      rw [byteAt, List.getD_eq_getElem?_getD, List.getElem?_eq_getElem (by
        rw [length_foldl_xorInto, List.length_replicate]; exact h1)] at hby
      simp only [Option.getD_some] at hby
      rw [hby, byteAt, List.getD_eq_getElem?_getD,
        List.getElem?_eq_getElem (by simpa using h1)]
      simp only [List.getElem_replicate, Option.getD_some, Nat.zero_xor]
      rw [List.getElem_map, List.getElem_range, foldr_xor_eq_foldl]

theorem validateOk_iff (c : Fec.Config) :
    c.validateOk = true ↔
      c.redundancyPercent ≤ 100 ∧ 0 < c.blockSize ∧ c.blockSize ≤ 255 := by
  simp [Fec.Config.validateOk, and_assoc]

theorem calcRed_ne_zero (c : Fec.Config) (h : 0 < c.redundancyPercent)
    (n : Nat) : c.calculateRedundancyPackets n ≠ 0 := by
  rw [Fec.Config.calculateRedundancyPackets, if_neg (by omega)]
  simp only
  split <;> omega

theorem Encode_of_pos (c : Fec.Config) (b : List Packet) (hb : b ≠ [])
    (hp : 0 < c.redundancyPercent) :
    Fec.Encode c b = b ++
      (List.range ((b.length + c.blockSize - 1) / c.blockSize)).filterMap
        (fun j => Fec.xorPackets ((b.drop (j * c.blockSize)).take c.blockSize)) := by
  rw [Fec.Encode, if_neg (by simpa [List.isEmpty_iff] using hb),
    if_neg (calcRed_ne_zero c hp b.length)]

theorem blockAt_ne_nil (c : Fec.Config) (b : List Packet) (hb : b ≠ [])
    (hB : 0 < c.blockSize) {j : Nat}
    (hj : j < (b.length + c.blockSize - 1) / c.blockSize) :
    (b.drop (j * c.blockSize)).take c.blockSize ≠ [] := by
  have hn : 0 < b.length := List.length_pos.mpr hb
  have h1 : (j + 1) * c.blockSize ≤
      (b.length + c.blockSize - 1) / c.blockSize * c.blockSize :=
    Nat.mul_le_mul_right _ hj
  have h2 : (b.length + c.blockSize - 1) / c.blockSize * c.blockSize ≤
      b.length + c.blockSize - 1 := Nat.div_mul_le_self _ _
  have h4 : (j + 1) * c.blockSize = j * c.blockSize + c.blockSize := by ring
  have h3 : j * c.blockSize < b.length := by omega
  apply List.ne_nil_of_length_pos
  rw [List.length_take, List.length_drop]
  omega

/-- Main refinement for the encoder (claim C6, amended): for every valid
configuration, (a) with positive redundancy, and provided every block
contains at least one non-empty packet, `Encode` produces exactly the
original packets followed by one spec-shaped redundancy packet per block
in block order; (b) an empty input returns the input unchanged; and
(c) whenever the redundancy count is zero — which for a validated
configuration means redundancy_percent = 0 — `Encode` returns the input
unchanged.  Clause (c) carries no positive-redundancy hypothesis, so it
covers exactly the percent-0 configurations. -/
theorem fec_encode_refines_spec (c : Fec.Config) (b : List Packet)
    (hv : c.validateOk = true) :
    (0 < c.redundancyPercent →
      (∀ blk ∈ specBlocks c b, ∃ p ∈ blk, p ≠ []) →
      Fec.Encode c b = specEncode c b) ∧
    Fec.Encode c [] = [] ∧
    (∀ d : List Packet, c.calculateRedundancyPackets d.length = 0 →
      Fec.Encode c d = d) := by
  obtain ⟨-, hB, -⟩ := (validateOk_iff c).mp hv
  refine ⟨fun hp hblk => ?_, by rw [Fec.Encode]; rfl, fun d hd => ?_⟩
  · rcases eq_or_ne b [] with rfl | hb
    · have h0 : (c.blockSize - 1) / c.blockSize = 0 :=
        Nat.div_eq_of_lt (by omega)
      simp [Fec.Encode, specEncode, specBlocks, h0]
    · rw [Encode_of_pos c b hb hp, specEncode, specBlocks, List.map_map]
      refine congrArg _ ?_
      refine filterMap_eq_map_of_some _ _ _ fun j hj => ?_
      have hj2 := List.mem_range.mp hj
      refine xorPackets_eq_spec _ (blockAt_ne_nil c b hb hB hj2) ?_
      obtain ⟨p, hpmem, hpne⟩ := hblk ((b.drop (j * c.blockSize)).take c.blockSize)
        (List.mem_map.mpr ⟨j, hj, rfl⟩)
      have := length_le_maxLenFrom hpmem 0
      have : 0 < p.length := List.length_pos.mpr hpne
      omega
  · simp [Fec.Encode, hd]

theorem getD_map_range_opt (f : Nat → Option Packet) {m n : Nat} (h : m < n)
    (d : Option Packet) : ((List.range n).map f).getD m d = f m := by
  simp [List.getD_eq_getElem?_getD, List.getElem?_map, List.getElem?_range h]

/-- Claim C1 (counterexample): with the valid configuration 50% / block
size 2 and the non-empty batch `[[1]]`, decoding the encoded stream with
an empty lost set returns the empty list, not the batch: the Go decoder
returns only recovered packets, and recovers nothing when nothing is
lost. -/
theorem fec_roundtrip_counterexample :
    Fec.Config.validateOk ⟨50, 2⟩ = true ∧
    (Fec.Decode ⟨50, 2⟩ ((Fec.Encode ⟨50, 2⟩ [[1]]).map some) []).1 = [] ∧
    (Fec.Decode ⟨50, 2⟩ ((Fec.Encode ⟨50, 2⟩ [[1]]).map some) []).1 ≠
      [[1]].map some := by decide

/-- Claim C1 (amended): with no losses the decoder recovers nothing — it
returns the empty list — and the data packets of the encoded stream are
unchanged: the encoded stream begins with the original batch. -/
theorem fec_decode_empty_lost_spec (c : Fec.Config) (b : List Packet)
    (hv : c.validateOk = true) (hp : 0 < c.redundancyPercent) (hb : b ≠ []) :
    (Fec.Decode c ((Fec.Encode c b).map some) []).1 = [] ∧
    (Fec.Encode c b).take b.length = b := by
  refine ⟨rfl, ?_⟩
  rw [Encode_of_pos c b hb hp]
  exact List.take_left' rfl

theorem fec_decode_empty_lost_spec_witness :
    (Fec.Decode ⟨50, 2⟩ ((Fec.Encode ⟨50, 2⟩ [[5]]).map some) []).1 = [] ∧
    (Fec.Encode ⟨50, 2⟩ [[5]]).take 1 = [[5]] :=
  fec_decode_empty_lost_spec ⟨50, 2⟩ [[5]] (by decide) (by decide) (by decide)

/-- Claim C6 (counterexample): a block consisting only of empty packets
produces NO redundancy packet (`xorPackets` returns nil and the encoder
skips it), so the encoder does not always append exactly one redundancy
packet per block. -/
theorem fec_encode_counterexample :
    Fec.Config.validateOk ⟨50, 1⟩ = true ∧
    Fec.Encode ⟨50, 1⟩ [[]] = [[]] ∧
    Fec.Encode ⟨50, 1⟩ [[]] ≠ specEncode ⟨50, 1⟩ [[]] := by decide

theorem fec_encode_refines_spec_witness :
    Fec.Encode ⟨50, 2⟩ [[1, 2], [3]] = specEncode ⟨50, 2⟩ [[1, 2], [3]] ∧
    Fec.Encode ⟨0, 2⟩ [[7], [8], [9]] = [[7], [8], [9]] :=
  ⟨(fec_encode_refines_spec ⟨50, 2⟩ [[1, 2], [3]] (by decide)).1 (by decide)
      (by decide),
   (fec_encode_refines_spec ⟨0, 2⟩ [[7], [8], [9]] (by decide)).2.2
      [[7], [8], [9]] (by decide)⟩

/-- Claim C7: the decoder never recovers anything in a block that has two
or more (in particular two distinct) lost indices — every lost index of
such a block stays `none` in the result — and `Decode` never fails: its
error component is nil on every input. -/
theorem fec_decode_skips_multi_loss (c : Fec.Config)
    (packets : List (Option Packet)) (lost : List Nat) :
    (Fec.Decode c packets lost).2 = none ∧
    (∀ i j m, i ∈ lost → j ∈ lost → i ≠ j →
      i / c.blockSize = j / c.blockSize → m ∈ lost →
      m / c.blockSize = i / c.blockSize →
      (Fec.Decode c packets lost).1.getD m none = none) := by
  constructor
  · rw [Fec.Decode]
    split <;> rfl
  · intro i j m hi hj hne hij hm hmi
    have hlost : ¬ lost.isEmpty = true := by
      simp [List.isEmpty_iff]
      exact List.ne_nil_of_mem hi
    rw [Fec.Decode, if_neg hlost]
    simp only
    by_cases hmlen : m < packets.length
    · rw [getD_map_range_opt _ hmlen]
      rw [if_neg]
      intro hEq
      have hiF : i ∈ lost.filter (fun j2 => j2 / c.blockSize = m / c.blockSize) :=
        List.mem_filter.mpr ⟨hi, by simp [hmi.symm]⟩
      have hjF : j ∈ lost.filter (fun j2 => j2 / c.blockSize = m / c.blockSize) :=
        List.mem_filter.mpr ⟨hj, by simp [hmi.symm, hij.symm]⟩
      rw [hEq] at hiF hjF
      simp only [List.mem_singleton] at hiF hjF
      exact hne (hiF.trans hjF.symm)
    · rw [List.getD_eq_getElem?_getD, List.getElem?_eq_none (by simpa using hmlen)]
      rfl

theorem fec_decode_skips_multi_loss_witness :
    (Fec.Decode ⟨50, 2⟩ [none, none, some [2, 0, 2, 0, 2, 1]] [0, 1]).1.getD 1
      none = none ∧
    (Fec.Decode ⟨50, 2⟩ [none, none, some [2, 0, 2, 0, 2, 1]] [0, 1]).2 = none := by
  have h := fec_decode_skips_multi_loss ⟨50, 2⟩
    [none, none, some [2, 0, 2, 0, 2, 1]] [0, 1]
  exact ⟨h.2 0 1 1 (by decide) (by decide) (by decide) (by decide) (by decide)
    (by decide), h.1⟩

/-- Claim C3 (counterexample): in the pool built from 10.9.9.0/30 with
gateway 10.9.9.1 the broadcast address 10.9.9.3 is also assignable, so the
second Allocate SUCCEEDS (returning 10.9.9.3/32) instead of failing with
the exhaustion error.  Addresses are written as 32-bit integers
(10.9.9.0 = 168364288). -/
theorem ippool_s5_counterexample :
    ((NewIPPool 168364288 30 168364289).Allocate "client-1").1 =
      Except.ok (168364290, 32) ∧
    (((NewIPPool 168364288 30 168364289).Allocate "client-1").2.Allocate
      "client-2").1 = Except.ok (168364291, 32) := by decide

/-- Claim C3 (amended): the 10.9.9.0/30 pool with gateway 10.9.9.1 has TWO
assignable addresses — 10.9.9.2 and the broadcast address 10.9.9.3; the
first Allocate returns 10.9.9.2/32, the second returns 10.9.9.3/32, and
only the third fails with the exhaustion error. -/
theorem ippool_s5_amended :
    (NewIPPool 168364288 30 168364289).available = [168364290, 168364291] ∧
    ((NewIPPool 168364288 30 168364289).Allocate "client-1").1 =
      Except.ok (168364290, 32) ∧
    (((NewIPPool 168364288 30 168364289).Allocate "client-1").2.Allocate
      "client-2").1 = Except.ok (168364291, 32) ∧
    ((((NewIPPool 168364288 30 168364289).Allocate "client-1").2.Allocate
      "client-2").2.Allocate "client-3").1 =
      Except.error "no available IP addresses" := by decide

/-- Claim C4: evaluating the registered /vpn handler at a request from an
authenticated, registered client against an exhausted pool: the handler
reaches the exhaustion path AFTER the CONNECT-IP proxy has written the
success response, closes the connection, and never sends HTTP 500. -/
theorem vpn_handler_exhaustion_no_500 :
    vpnHandler ⟨true, "client-3", true, true, true⟩
      ((((NewIPPool 168364288 30 168364289).Allocate "client-1").2.Allocate
        "client-2").2) = VpnOutcome.exhaustedClosed ∧
    statusSentToClient (vpnHandler ⟨true, "client-3", true, true, true⟩
      ((((NewIPPool 168364288 30 168364289).Allocate "client-1").2.Allocate
        "client-2").2)) = some 200 ∧
    statusSentToClient (vpnHandler ⟨true, "client-3", true, true, true⟩
      ((((NewIPPool 168364288 30 168364289).Allocate "client-1").2.Allocate
        "client-2").2)) ≠ some 500 := by decide

/-- Claim C5 (counterexample): `Release` appends to the TAIL of the free
list, so after an out-of-order release the head of the free list is no
longer the lowest free address: in the 10.0.0.0/29 pool, after allocating
10.0.0.2 and releasing it again, Allocate returns 10.0.0.3/32 even though
10.0.0.2 is free and lower. -/
theorem ippool_allocate_not_lowest :
    ((((NewIPPool 167772160 29 167772161).Allocate "c1").2.Release
      167772162).Allocate "c2").1 = Except.ok (167772163, 32) ∧
    167772162 ∈ (((NewIPPool 167772160 29 167772161).Allocate "c1").2.Release
      167772162).available ∧
    (167772162 : Nat) < 167772163 := by decide

/-- Claim C5 (amended): Allocate on a non-empty free list returns a
prefix of bit-length 32 containing the HEAD of the free list and moves it
to the allocated map; the head is the lowest free address whenever the
free list is sorted ascending — as it is in any freshly created pool —
but releases append at the tail, so this can lapse; on an empty free list
Allocate fails with the exhaustion error and the pool is unchanged. -/
theorem ippool_allocate_spec (p : IPPool) (cid : String) :
    (p.available = [] →
      p.Allocate cid = (Except.error "no available IP addresses", p)) ∧
    (∀ ip rest, p.available = ip :: rest →
      (p.Allocate cid).1 = Except.ok (ip, 32) ∧
      (p.Allocate cid).2.available = rest ∧
      (p.Allocate cid).2.allocated = (ip, cid) :: p.allocated ∧
      (p.available.Sorted (· ≤ ·) → ∀ a ∈ p.available, ip ≤ a)) ∧
    (∀ base bits gw, (NewIPPool base bits gw).available.Sorted (· ≤ ·)) := by
  refine ⟨fun h => ?_, fun ip rest h => ?_, fun base bits gw => ?_⟩
  · rw [IPPool.Allocate]
    split
    · rfl
    · rename_i ip rest h2
      rw [h] at h2
      cases h2
  · rw [IPPool.Allocate]
    split
    · rename_i h2
      rw [h] at h2
      cases h2
    · rename_i ip2 rest2 h2
      rw [h] at h2
      injection h2 with hip hrest
      subst hip hrest
      refine ⟨rfl, rfl, rfl, fun hs a ha => ?_⟩
      rw [h] at hs ha
      rcases List.mem_cons.mp ha with rfl | ha2
      · exact le_refl a
      · exact List.rel_of_sorted_cons hs a ha2
  · exact (List.pairwise_le_range' _ _ 1).filter _

theorem ippool_allocate_spec_witness :
    ((NewIPPool 167772160 30 167772161).Allocate "x").1 =
      Except.ok (167772162, 32) :=
  (((ippool_allocate_spec (NewIPPool 167772160 30 167772161) "x").2.1
    167772162 [167772163]) (by decide)).1

/-- Claim C9: the client accepts a CONNECT response exactly when its text
contains "200" or "OK" as a substring; any other response fails, closing
the stream and returning the (Protocol-kind) error. -/
theorem connectip_response_check (resp : List Char) :
    (connectIPCheckResponse resp = NegotiationOutcome.established ↔
      ("200".toList <:+: resp ∨ "OK".toList <:+: resp)) ∧
    (¬ ("200".toList <:+: resp) → ¬ ("OK".toList <:+: resp) →
      connectIPCheckResponse resp =
        NegotiationOutcome.failed true
          ("MASQUE CONNECT request failed: " ++ String.mk resp)) := by
  constructor
  · by_cases h200 : "200".toList <:+: resp
    · have e1 : stringContains resp "200".toList = true := by
        rw [stringContains]; exact decide_eq_true h200
      rw [connectIPCheckResponse, e1]
      exact iff_of_true rfl (Or.inl h200)
    · have e1 : stringContains resp "200".toList = false := by
        rw [stringContains]; exact decide_eq_false h200
      by_cases hOK : "OK".toList <:+: resp
      · have e2 : stringContains resp "OK".toList = true := by
          rw [stringContains]; exact decide_eq_true hOK
        rw [connectIPCheckResponse, e1, e2]
        exact iff_of_true rfl (Or.inr hOK)
      · have e2 : stringContains resp "OK".toList = false := by
          rw [stringContains]; exact decide_eq_false hOK
        rw [connectIPCheckResponse, e1, e2]
        exact iff_of_false (fun hcon => NegotiationOutcome.noConfusion hcon)
          (by rw [not_or]; exact ⟨h200, hOK⟩)
  · intro h1 h2
    have e1 : stringContains resp "200".toList = false := by
      rw [stringContains]; exact decide_eq_false h1
    have e2 : stringContains resp "OK".toList = false := by
      rw [stringContains]; exact decide_eq_false h2
    rw [connectIPCheckResponse, e1, e2]
    rfl

theorem connectip_response_check_witness :
    connectIPCheckResponse "HTTP/1.1 200 OK".toList =
      NegotiationOutcome.established ∧
    connectIPCheckResponse "HTTP/1.1 403 Forbidden".toList =
      NegotiationOutcome.failed true
        ("MASQUE CONNECT request failed: " ++
          String.mk "HTTP/1.1 403 Forbidden".toList) :=
  ⟨(connectip_response_check "HTTP/1.1 200 OK".toList).1.mpr
      (Or.inl (by decide)),
   (connectip_response_check "HTTP/1.1 403 Forbidden".toList).2
      (by decide) (by decide)⟩

/-- Claim C10: under the precondition `length ≤ packet.length`, the IP
header parser never performs an out-of-bounds access (it never reaches
the panic outcome, and neither do its two projections), and it returns an
error — rather than panicking — for short frames (`length < 20`), for
version-6 frames shorter than 40 bytes, and for any version nibble other
than 4 or 6. -/
theorem getIPAddresses_no_oob (packet : List Byte) (length : Nat)
    (h : length ≤ packet.length) :
    GetIPAddresses packet length ≠ none ∧
    GetSourceIP packet length ≠ none ∧
    GetDestinationIP packet length ≠ none ∧
    (length < 20 →
      GetIPAddresses packet length = some (Except.error "packet length too short")) ∧
    (20 ≤ length → byteAt packet 0 >>> 4 = 6 → length < 40 →
      GetIPAddresses packet length = some (Except.error "IPv6 packet too short")) ∧
    (20 ≤ length → byteAt packet 0 >>> 4 ≠ 4 → byteAt packet 0 >>> 4 ≠ 6 →
      GetIPAddresses packet length =
        some (Except.error "unsupported IP version")) := by
  have hmain : GetIPAddresses packet length ≠ none ∧
      (length < 20 →
        GetIPAddresses packet length = some (Except.error "packet length too short")) ∧
      (20 ≤ length → byteAt packet 0 >>> 4 = 6 → length < 40 →
        GetIPAddresses packet length = some (Except.error "IPv6 packet too short")) ∧
      (20 ≤ length → byteAt packet 0 >>> 4 ≠ 4 → byteAt packet 0 >>> 4 ≠ 6 →
        GetIPAddresses packet length =
          some (Except.error "unsupported IP version")) := by
    by_cases h20 : length < 20
    · rw [GetIPAddresses, if_pos h20]
      exact ⟨by simp, fun _ => rfl, by omega, by omega⟩
    · have hp20 : 20 ≤ packet.length := by omega
      have hget : packet.get? 0 = some (byteAt packet 0) := by
        rw [byteAt, List.get?_eq_getElem?, List.getD_eq_getElem?_getD,
          List.getElem?_eq_getElem (by omega)]
        rfl
      rw [GetIPAddresses, if_neg h20, hget]
      simp only
      by_cases h4 : byteAt packet 0 >>> 4 = 4
      · rw [if_pos h4, if_neg h20]
        have hs1 : sliceGo packet 12 16 = some ((packet.drop 12).take 4) :=
          if_pos (by omega)
        have hs2 : sliceGo packet 16 20 = some ((packet.drop 16).take 4) :=
          if_pos (by omega)
        rw [hs1, hs2]
        dsimp only
        have ha1 : addrFromSlice ((packet.drop 12).take 4) =
            some ((packet.drop 12).take 4) := by
          rw [addrFromSlice, if_pos]
          left
          rw [List.length_take, List.length_drop]
          omega
        have ha2 : addrFromSlice ((packet.drop 16).take 4) =
            some ((packet.drop 16).take 4) := by
          rw [addrFromSlice, if_pos]
          left
          rw [List.length_take, List.length_drop]
          omega
        rw [ha1, ha2]
        dsimp only
        exact ⟨by simp, by omega, fun _ h6 => absurd h4 (by rw [h6]; decide),
          fun _ hn4 _ => absurd h4 hn4⟩
      · rw [if_neg h4]
        by_cases h6 : byteAt packet 0 >>> 4 = 6
        · rw [if_pos h6]
          by_cases h40 : length < 40
          · rw [if_pos h40]
            exact ⟨by simp, by omega, fun _ _ _ => rfl,
              fun _ _ hn6 => absurd h6 hn6⟩
          · rw [if_neg h40]
            have hp40 : 40 ≤ packet.length := by omega
            have hs1 : sliceGo packet 8 24 = some ((packet.drop 8).take 16) :=
              if_pos (by omega)
            have hs2 : sliceGo packet 24 40 = some ((packet.drop 24).take 16) :=
              if_pos (by omega)
            rw [hs1, hs2]
            dsimp only
            have ha1 : addrFromSlice ((packet.drop 8).take 16) =
                some ((packet.drop 8).take 16) := by
              rw [addrFromSlice, if_pos]
              right
              rw [List.length_take, List.length_drop]
              omega
            have ha2 : addrFromSlice ((packet.drop 24).take 16) =
                some ((packet.drop 24).take 16) := by
              rw [addrFromSlice, if_pos]
              right
              rw [List.length_take, List.length_drop]
              omega
            rw [ha1, ha2]
            dsimp only
            exact ⟨by simp, by omega, by omega, fun _ _ hn6 => absurd h6 hn6⟩
        · rw [if_neg h6]
          exact ⟨by simp, by omega, fun _ hh6 => absurd hh6 h6,
            fun _ _ _ => rfl⟩
  refine ⟨hmain.1, ?_, ?_, hmain.2⟩
  · rw [GetSourceIP]
    rcases hval : GetIPAddresses packet length with - | v
    · exact absurd hval hmain.1
    · cases v <;> simp
  · rw [GetDestinationIP]
    rcases hval : GetIPAddresses packet length with - | v
    · exact absurd hval hmain.1
    · cases v <;> simp

theorem getIPAddresses_no_oob_witness :
    GetIPAddresses
      [0x45, 0, 0, 0x1c, 0, 0, 0x40, 0, 0x40, 0x11, 0, 0,
       0xc0, 0xa8, 1, 1, 0xc0, 0xa8, 1, 2] 20 ≠ none :=
  (getIPAddresses_no_oob
    [0x45, 0, 0, 0x1c, 0, 0, 0x40, 0, 0x40, 0x11, 0, 0,
     0xc0, 0xa8, 1, 1, 0xc0, 0xa8, 1, 2] 20 (by decide)).1

theorem uint32Mod_pos : 0 < uint32Mod := by norm_num [uint32Mod]

theorem sendFrames_spec (l : List Packet) (n : Nat) :
    (sendFrames (n % uint32Mod) l).2.map Prod.fst =
      (List.range' n l.length).map (· % uint32Mod) ∧
    (sendFrames (n % uint32Mod) l).1 = (n + l.length) % uint32Mod := by
  induction l generalizing n with
  | nil => simp [sendFrames]
  | cons p l ih =>
    have h32 : (2 : Nat) ^ 32 = 4294967296 := by norm_num
    have hmod : (n % uint32Mod + 1) % uint32Mod = (n + 1) % uint32Mod := by
      rw [uint32Mod, h32]
      omega
    rw [sendFrames, hmod]
    obtain ⟨ih1, ih2⟩ := ih (n + 1)
    constructor
    · rw [List.map_cons, ih1, List.length_cons, List.range'_succ, List.map_cons]
    · rw [ih2, List.length_cons]
      have harg : n + 1 + l.length = n + (l.length + 1) := by omega
      rw [harg]

theorem pump_chunk_inv (st : PumpState) (l : List Packet)
    (h1 : st.seqNum = st.written.length % uint32Mod)
    (h2 : st.written.map Prod.fst =
      (List.range st.written.length).map (· % uint32Mod)) :
    (st.written ++ (sendFrames st.seqNum l).2).map Prod.fst =
      (List.range (st.written ++ (sendFrames st.seqNum l).2).length).map
        (· % uint32Mod) ∧
    (sendFrames st.seqNum l).1 =
      (st.written ++ (sendFrames st.seqNum l).2).length % uint32Mod := by
  obtain ⟨hs1, hs2⟩ := sendFrames_spec l st.written.length
  rw [h1] at *
  have hlen : (sendFrames (st.written.length % uint32Mod) l).2.length = l.length := by
    have := congrArg List.length hs1
    simpa using this
  constructor
  · rw [List.map_append, h2, hs1, List.length_append, hlen,
      List.range_eq_range', List.range_eq_range',
      Nat.add_comm st.written.length l.length,
      ← List.range'_append_1 0 st.written.length l.length,
      List.map_append, Nat.zero_add]
  · rw [hs2, List.length_append, hlen]

theorem pumpPacket_inv (c : Fec.Config) (st : PumpState) (pkt : Packet)
    (h1 : st.seqNum = st.written.length % uint32Mod)
    (h2 : st.written.map Prod.fst =
      (List.range st.written.length).map (· % uint32Mod)) :
    (pumpPacket c st pkt).seqNum =
      (pumpPacket c st pkt).written.length % uint32Mod ∧
    (pumpPacket c st pkt).written.map Prod.fst =
      (List.range (pumpPacket c st pkt).written.length).map (· % uint32Mod) := by
  rw [pumpPacket]
  split
  · obtain ⟨hc1, hc2⟩ :=
      pump_chunk_inv st (Fec.Encode c (st.packetBuffer ++ [pkt])) h1 h2
    exact ⟨hc2, hc1⟩
  · exact ⟨h1, h2⟩

theorem foldl_pumpPacket_inv (c : Fec.Config) (batch : List Packet) :
    ∀ st : PumpState, st.seqNum = st.written.length % uint32Mod →
    st.written.map Prod.fst =
      (List.range st.written.length).map (· % uint32Mod) →
    (batch.foldl (pumpPacket c) st).seqNum =
      (batch.foldl (pumpPacket c) st).written.length % uint32Mod ∧
    (batch.foldl (pumpPacket c) st).written.map Prod.fst =
      (List.range (batch.foldl (pumpPacket c) st).written.length).map
        (· % uint32Mod) := by
  induction batch with
  | nil => exact fun st h1 h2 => ⟨h1, h2⟩
  | cons pkt batch ih =>
    intro st h1 h2
    rw [List.foldl_cons]
    obtain ⟨h1a, h2a⟩ := pumpPacket_inv c st pkt h1 h2
    exact ih (pumpPacket c st pkt) h1a h2a

theorem pumpBatch_inv (c : Fec.Config) (st : PumpState) (batch : List Packet)
    (h1 : st.seqNum = st.written.length % uint32Mod)
    (h2 : st.written.map Prod.fst =
      (List.range st.written.length).map (· % uint32Mod)) :
    (pumpBatch c st batch).seqNum =
      (pumpBatch c st batch).written.length % uint32Mod ∧
    (pumpBatch c st batch).written.map Prod.fst =
      (List.range (pumpBatch c st batch).written.length).map (· % uint32Mod) := by
  rw [pumpBatch]
  obtain ⟨h1a, h2a⟩ := foldl_pumpPacket_inv c batch st h1 h2
  split
  · exact ⟨h1a, h2a⟩
  · obtain ⟨hc1, hc2⟩ := pump_chunk_inv (batch.foldl (pumpPacket c) st)
      (Fec.Encode c (batch.foldl (pumpPacket c) st).packetBuffer) h1a h2a
    exact ⟨hc2, hc1⟩

/-- Claim C8: over the lifetime of one Tun→Tunnel pump with FEC enabled,
the k-th frame written to the tunnel carries sequence number
`k mod 2^32`; the counter always equals the number of frames written so
far reduced modulo 2^32; and as long as the pump has written at most 2^32
frames (the full range of the 32-bit field), the sequence numbers written
are exactly 0, 1, 2, … — strictly increasing by one, starting at 0. -/
theorem pump_seq_monotonic (c : Fec.Config) (batches : List (List Packet)) :
    (pumpRun c batches).written.map Prod.fst =
      (List.range (pumpRun c batches).written.length).map (· % uint32Mod) ∧
    (pumpRun c batches).seqNum =
      (pumpRun c batches).written.length % uint32Mod ∧
    ((pumpRun c batches).written.length ≤ uint32Mod →
      (pumpRun c batches).written.map Prod.fst =
        List.range (pumpRun c batches).written.length) := by
  have hrun : ∀ (bs : List (List Packet)) (st : PumpState),
      st.seqNum = st.written.length % uint32Mod →
      st.written.map Prod.fst =
        (List.range st.written.length).map (· % uint32Mod) →
      (bs.foldl (pumpBatch c) st).seqNum =
        (bs.foldl (pumpBatch c) st).written.length % uint32Mod ∧
      (bs.foldl (pumpBatch c) st).written.map Prod.fst =
        (List.range (bs.foldl (pumpBatch c) st).written.length).map
          (· % uint32Mod) := by
    intro bs
    induction bs with
    | nil => exact fun st h1 h2 => ⟨h1, h2⟩
    | cons batch bs ih =>
      intro st h1 h2
      rw [List.foldl_cons]
      obtain ⟨h1a, h2a⟩ := pumpBatch_inv c st batch h1 h2
      exact ih (pumpBatch c st batch) h1a h2a
  rw [pumpRun]
  obtain ⟨hseq, hmap⟩ := hrun batches ⟨0, [], []⟩ rfl rfl
  refine ⟨hmap, hseq, fun hle => ?_⟩
  rw [hmap]
  have hmem : ∀ a ∈ List.range
      (batches.foldl (pumpBatch c) ⟨0, [], []⟩).written.length,
      a % uint32Mod = a := by
    intro a ha
    exact Nat.mod_eq_of_lt (lt_of_lt_of_le (List.mem_range.mp ha) hle)
  rw [List.map_congr_left hmem]
  simp

theorem pump_seq_monotonic_witness :
    (pumpRun ⟨50, 2⟩ [[[1], [2], [3]], [[4]]]).written.map Prod.fst =
      [0, 1, 2, 3, 4, 5, 6] := by
  have h := (pump_seq_monotonic ⟨50, 2⟩ [[[1], [2], [3]], [[4]]]).2.2
    (by decide)
  rw [h]
  decide

theorem getD_map_range {α : Type} (f : Nat → α) {m n : Nat} (h : m < n)
    (d : α) : ((List.range n).map f).getD m d = f m := by
  simp [List.getD_eq_getElem?_getD, List.getElem?_map, List.getElem?_range h]

theorem getD_map_some_set_ne (l : List Packet) {i j : Nat} (hne : i ≠ j)
    (hj : j < l.length) :
    ((l.map some).set i none).getD j none = some (l.getD j []) := by
  rw [List.getD_eq_getElem?_getD, List.getElem?_set_ne hne, List.getElem?_map,
    List.getElem?_eq_getElem (by simpa using hj), List.getD_eq_getElem?_getD,
    List.getElem?_eq_getElem hj]
  rfl

theorem range'_split_at (s n i : Nat) (h1 : s ≤ i) (h2 : i < s + n) :
    List.range' s n =
      List.range' s (i - s) ++ i :: List.range' (i + 1) (s + n - i - 1) := by
  have hstep : s + (i - s) = i := by omega
  have hrest : n - (i - s) = (s + n - i - 1) + 1 := by omega
  have h3 := List.range'_append_1 s (i - s) (n - (i - s))
  rw [hstep, hrest, List.range'_succ] at h3
  rw [h3]
  congr 1
  omega

theorem filter_ne_middle (s n i : Nat) (h1 : s ≤ i) (h2 : i < s + n) :
    (List.range' s n).filter (fun j => j ≠ i) =
      List.range' s (i - s) ++ List.range' (i + 1) (s + n - i - 1) := by
  rw [range'_split_at s n i h1 h2, List.filter_append, List.filter_cons]
  have hdec : (decide (i ≠ i)) = false := by simp
  rw [hdec]
  simp only [Bool.false_eq_true, if_false]
  refine congrArg₂ _ ?_ ?_
  · rw [List.filter_eq_self]
    intro a ha
    have := List.mem_range'_1.mp ha
    simp only [decide_eq_true_eq]
    omega
  · rw [List.filter_eq_self]
    intro a ha
    have := List.mem_range'_1.mp ha
    simp only [decide_eq_true_eq]
    omega

theorem take_range' (s n m : Nat) (h : m ≤ n) :
    (List.range' s n).take m = List.range' s m := by
  have h3 := List.range'_append_1 s m (n - m)
  have hnm : n - m + m = n := by omega
  rw [hnm] at h3
  rw [← h3, List.take_left' (List.length_range' s 1 m)]

theorem drop_range' (s n m : Nat) (h : m ≤ n) :
    (List.range' s n).drop m = List.range' (s + m) (n - m) := by
  have h3 := List.range'_append_1 s m (n - m)
  have hnm : n - m + m = n := by omega
  rw [hnm] at h3
  rw [← h3, List.drop_left' (List.length_range' s 1 m)]

theorem byteAt_eq_getElem (p : Packet) (t : Nat) (h : t < p.length) :
    byteAt p t = p[t] := by
  rw [byteAt, List.getD_eq_getElem?_getD, List.getElem?_eq_getElem h]
  rfl

theorem xorRecover_spec (blk : List Packet) (m : Nat) (hm : m < blk.length) :
    Fec.xorPacketsWithRedundancy (blk.take m ++ blk.drop (m + 1))
      (specRedundancy blk) (1 + blk.length * 2) ((blk.getD m []).length) =
      some (blk.getD m []) := by
  have hxel : blk.getD m [] = blk[m] := by
    rw [List.getD_eq_getElem?_getD, List.getElem?_eq_getElem hm]
    rfl
  have hxmem : blk.getD m [] ∈ blk := by
    rw [hxel]
    exact List.mem_iff_getElem.mpr ⟨m, hm, rfl⟩
  have hLM : (blk.getD m []).length ≤ maxLenFrom 0 blk :=
    length_le_maxLenFrom hxmem 0
  have hsplit : blk = blk.take m ++ blk.getD m [] :: blk.drop (m + 1) := by
    conv_lhs => rw [← List.take_append_drop m blk]
    rw [List.drop_eq_getElem_cons hm, hxel]
  have hrplen : (specRedundancy blk).length =
      1 + 2 * blk.length + maxLenFrom 0 blk := length_specRedundancy blk
  have hmaxeq : maxLenFrom (blk.getD m []).length
      (blk.take m ++ blk.drop (m + 1)) = maxLenFrom 0 blk := by
    rw [maxLenFrom_middle, ← hsplit]
  have hflatlen :
      (blk.flatMap fun p => [p.length % 65536 / 256, p.length % 256]).length =
        2 * blk.length := flatMap_pair_length _ _ blk
  have hbody : (specRedundancy blk).drop (1 + blk.length * 2) =
      (List.range (maxLenFrom 0 blk)).map fun t =>
        ((blk.map fun p => byteAt p t).foldr (· ^^^ ·) 0) := by
    rw [specRedundancy, foldr_max_eq_maxLenFrom]
    exact List.drop_left' (by rw [List.length_cons, hflatlen]; omega)
  have hbodylen : ((specRedundancy blk).drop (1 + blk.length * 2)).length =
      maxLenFrom 0 blk := by
    rw [hbody]
    simp
  rw [Fec.xorPacketsWithRedundancy, if_neg (by omega)]
  simp only
  rw [hmaxeq, hbody]
  have hblen2 : ((List.range (maxLenFrom 0 blk)).map fun t =>
      ((blk.map fun p => byteAt p t).foldr (· ^^^ ·) 0)).length =
      maxLenFrom 0 blk := by simp
  rw [hblen2, Nat.min_self, List.take_of_length_le (le_of_eq hblen2),
    zeroPad, List.take_of_length_le (le_of_eq hblen2), hblen2, Nat.sub_self,
    List.replicate_zero, List.append_nil]
  refine congrArg some ?_
  refine List.ext_getElem ?_ fun t ht1 ht2 => ?_
  · rw [List.length_take, length_foldl_xorInto, hblen2]
    omega
  · have htM : t < maxLenFrom 0 blk := by
      rw [List.length_take, length_foldl_xorInto, hblen2] at ht1
      omega
    rw [List.getElem_take,
      ← byteAt_eq_getElem _ _ (by rw [length_foldl_xorInto, hblen2]; exact htM),
      ← byteAt_eq_getElem _ _ ht2]
    have hfold := byteAt_foldl_xorInto (blk.take m ++ blk.drop (m + 1))
      ((List.range (maxLenFrom 0 blk)).map fun t2 =>
        ((blk.map fun p => byteAt p t2).foldr (· ^^^ ·) 0))
      (t := t) (by rw [hblen2]; exact htM)
    rw [hfold]
    have hbodybyte : byteAt ((List.range (maxLenFrom 0 blk)).map fun t2 =>
        ((blk.map fun p => byteAt p t2).foldr (· ^^^ ·) 0)) t =
        ((blk.map fun p => byteAt p t).foldr (· ^^^ ·) 0) := by
      rw [byteAt, getD_map_range _ htM]
    rw [hbodybyte, foldr_xor_eq_foldl]
    have hmapblk : blk.map (fun p => byteAt p t) =
        (blk.take m).map (fun p => byteAt p t) ++
          byteAt (blk.getD m []) t ::
            (blk.drop (m + 1)).map (fun p => byteAt p t) := by
      conv_lhs => rw [hsplit]
      rw [List.map_append, List.map_cons]
    rw [hmapblk, List.map_append, xorFold_cancel]

theorem getD_append_left {α : Type} (l1 l2 : List α) (n : Nat) (d : α)
    (h : n < l1.length) : (l1 ++ l2).getD n d = l1.getD n d := by
  rw [List.getD_eq_getElem?_getD, List.getD_eq_getElem?_getD,
    List.getElem?_append_left h]

theorem getD_append_right {α : Type} (l1 l2 : List α) (n : Nat) (d : α)
    (h : l1.length ≤ n) : (l1 ++ l2).getD n d = l2.getD (n - l1.length) d := by
  rw [List.getD_eq_getElem?_getD, List.getD_eq_getElem?_getD,
    List.getElem?_append_right h]

theorem tryRecover_spec (c : Fec.Config) (b : List Packet) (i : Nat)
    (hv : c.validateOk = true) (hp : 0 < c.redundancyPercent)
    (hdvd : c.blockSize ∣ b.length) (hb : b ≠ [])
    (hpk : ∀ p ∈ b, p ≠ [] ∧ p.length < 65536) (hi : i < b.length) :
    Fec.tryRecover c (((Fec.Encode c b).map some).set i none) i =
      some (b.getD i []) := by
  obtain ⟨-, hB, hB255⟩ := (validateOk_iff c).mp hv
  obtain ⟨k, hn⟩ := hdvd
  have hkpos : 0 < k := by
    rcases Nat.eq_zero_or_pos k with rfl | h
    · rw [Nat.mul_zero] at hn
      exact absurd (List.eq_nil_of_length_eq_zero hn) hb
    · exact h
  have hnumBlocks : (b.length + c.blockSize - 1) / c.blockSize = k := by
    have harr : b.length + c.blockSize - 1 =
        c.blockSize * k + (c.blockSize - 1) := by omega
    rw [harr, Nat.mul_add_div hB, Nat.div_eq_of_lt (by omega), Nat.add_zero]
  have hblock : ∀ j, j < k →
      (b.drop (j * c.blockSize)).take c.blockSize =
        (List.range' (j * c.blockSize) c.blockSize).map fun t => b.getD t [] := by
    intro j hj
    refine block_eq_map_range b _ _ ?_
    have h1 : (j + 1) * c.blockSize ≤ k * c.blockSize :=
      Nat.mul_le_mul_right _ hj
    have h2 : (j + 1) * c.blockSize = j * c.blockSize + c.blockSize := by ring
    have h3 : k * c.blockSize = c.blockSize * k := Nat.mul_comm _ _
    omega
  have hEnc : Fec.Encode c b =
      b ++ (List.range k).map fun j =>
        specRedundancy ((b.drop (j * c.blockSize)).take c.blockSize) := by
    rw [Encode_of_pos c b hb hp, hnumBlocks]
    refine congrArg _ ?_
    refine filterMap_eq_map_of_some _ _ _ fun j hj => ?_
    have hjk := List.mem_range.mp hj
    refine xorPackets_eq_spec _
      (blockAt_ne_nil c b hb hB (by rw [hnumBlocks]; exact hjk)) ?_
    obtain ⟨p, hpmem⟩ := List.exists_mem_of_ne_nil _
      (blockAt_ne_nil c b hb hB (by rw [hnumBlocks]; exact hjk))
    have hpb : p ∈ b := List.drop_subset _ _ (List.take_subset _ _ hpmem)
    have hpe := (hpk p hpb).1
    have h1 := length_le_maxLenFrom hpmem 0
    have h2 : 0 < p.length := List.length_pos.mpr hpe
    omega
  have hlenEnc : (Fec.Encode c b).length = b.length + k := by
    rw [hEnc]
    simp
  have hlenRecv : (((Fec.Encode c b).map some).set i none).length =
      b.length + k := by simp [hlenEnc]
  have hidivB : i / c.blockSize < k :=
    (Nat.div_lt_iff_lt_mul hB).mpr (by rw [Nat.mul_comm k c.blockSize]; omega)
  have hbs_le_i : (i / c.blockSize) * c.blockSize ≤ i := Nat.div_mul_le_self i _
  have hmodid : i % c.blockSize + c.blockSize * (i / c.blockSize) = i :=
    Nat.mod_add_div i _
  have hcomm : c.blockSize * (i / c.blockSize) =
      (i / c.blockSize) * c.blockSize := Nat.mul_comm _ _
  have hmodlt : i % c.blockSize < c.blockSize := Nat.mod_lt i hB
  have hlt_bs : i < (i / c.blockSize) * c.blockSize + c.blockSize := by omega
  have hbsle : (i / c.blockSize) * c.blockSize + c.blockSize ≤ b.length := by
    have h1 : (i / c.blockSize + 1) * c.blockSize ≤ k * c.blockSize :=
      Nat.mul_le_mul_right _ hidivB
    have h2 : (i / c.blockSize + 1) * c.blockSize =
        (i / c.blockSize) * c.blockSize + c.blockSize := by ring
    have h3 : k * c.blockSize = c.blockSize * k := Nat.mul_comm _ _
    omega
  have hlib : i - (i / c.blockSize) * c.blockSize = i % c.blockSize := by omega
  have hsum : b.length + k = k * (c.blockSize + 1) := by rw [hn]; ring
  have hdivsum : (b.length + k) / (c.blockSize + 1) = k := by
    rw [hsum]
    exact Nat.mul_div_cancel k (by omega)
  have hnumData : b.length + k - (b.length + k) / (c.blockSize + 1) =
      b.length := by
    rw [hdivsum]
    have : k * (c.blockSize + 1) = k * c.blockSize + k := by ring
    omega
  have hblkB : ((b.drop ((i / c.blockSize) * c.blockSize)).take
      c.blockSize).length = c.blockSize := by
    rw [List.length_take, List.length_drop]
    omega
  have hdbg : b.length + i / c.blockSize < (b ++ (List.range k).map
      (fun j => specRedundancy ((b.drop (j * c.blockSize)).take
        c.blockSize))).length := by
    rw [List.length_append, List.length_map, List.length_range]
    exact Nat.add_lt_add_left hidivB b.length
  have hne2 : i ≠ b.length + i / c.blockSize :=
    Nat.ne_of_lt (lt_of_lt_of_le hi (Nat.le_add_right _ _))
  have hred : (((Fec.Encode c b).map some).set i none).getD
      (b.length + i / c.blockSize) none =
      some (specRedundancy
        ((b.drop ((i / c.blockSize) * c.blockSize)).take c.blockSize)) := by
    rw [hEnc]
    rw [getD_map_some_set_ne _ hne2 hdbg]
    rw [getD_append_right _ _ _ _ (Nat.le_add_right _ _),
      Nat.add_sub_cancel_left, getD_map_range _ hidivB]
  have hLmem : b.getD i [] ∈ b := by
    rw [List.getD_eq_getElem?_getD, List.getElem?_eq_getElem hi]
    exact List.mem_iff_getElem.mpr ⟨i, hi, rfl⟩
  have hL65536 := (hpk _ hLmem).2
  have hbyte0 : byteAt (specRedundancy
      ((b.drop ((i / c.blockSize) * c.blockSize)).take c.blockSize)) 0 =
      c.blockSize := by
    rw [specRedundancy, List.cons_append, byteAt, List.getD_cons_zero, hblkB,
      Nat.mod_eq_of_lt (by omega)]
  have hrpLenJ : (specRedundancy
      ((b.drop ((i / c.blockSize) * c.blockSize)).take c.blockSize)).length =
      1 + 2 * c.blockSize +
        maxLenFrom 0 ((b.drop ((i / c.blockSize) * c.blockSize)).take
          c.blockSize) := by
    rw [length_specRedundancy, hblkB]
  have hgetblk : ((b.drop ((i / c.blockSize) * c.blockSize)).take
      c.blockSize).getD (i % c.blockSize) [] = b.getD i [] := by
    rw [hblock _ hidivB, getD_map_range' _ _ hmodlt]
    congr 1
    omega
  have hbyteHi : byteAt (specRedundancy
      ((b.drop ((i / c.blockSize) * c.blockSize)).take c.blockSize))
      (1 + (i % c.blockSize) * 2) = (b.getD i []).length % 65536 / 256 := by
    rw [specRedundancy, List.cons_append]
    have h1t : 1 + (i % c.blockSize) * 2 = (i % c.blockSize) * 2 + 1 := by
      omega
    rw [h1t, byteAt, List.getD_cons_succ]
    rw [getD_append_left _ _ _ _ (by rw [flatMap_pair_length, hblkB]; omega)]
    have h2m : (i % c.blockSize) * 2 = 2 * (i % c.blockSize) := Nat.mul_comm _ _
    rw [h2m, flatMap_pair_getD_left _ _ _ (by rw [hblkB]; exact hmodlt),
      hgetblk]
  have hbyteLo : byteAt (specRedundancy
      ((b.drop ((i / c.blockSize) * c.blockSize)).take c.blockSize))
      (1 + (i % c.blockSize) * 2 + 1) = (b.getD i []).length % 256 := by
    rw [specRedundancy, List.cons_append]
    have h1t : 1 + (i % c.blockSize) * 2 + 1 = ((i % c.blockSize) * 2 + 1) + 1 := by
      omega
    rw [h1t, byteAt, List.getD_cons_succ]
    rw [getD_append_left _ _ _ _ (by rw [flatMap_pair_length, hblkB]; omega)]
    have h2m : (i % c.blockSize) * 2 + 1 = 2 * (i % c.blockSize) + 1 := by omega
    rw [h2m, flatMap_pair_getD_right _ _ _ (by rw [hblkB]; exact hmodlt),
      hgetblk]
  have horig : ((b.getD i []).length % 65536 / 256) <<< 8 |||
      (b.getD i []).length % 256 = (b.getD i []).length := by
    rw [Nat.mod_eq_of_lt hL65536,
      shiftLeft_or_byte _ _ (Nat.mod_lt _ (by omega))]
    omega
  have hgetj : ∀ j, j < b.length → j ≠ i →
      (((Fec.Encode c b).map some).set i none).getD j none =
        some (b.getD j []) := by
    intro j hj hjne
    rw [hEnc, getD_map_some_set_ne _ (Ne.symm hjne)
      (by rw [List.length_append, List.length_map, List.length_range]; omega),
      getD_append_left _ _ _ _ hj]
  have havail : ((List.range' ((i / c.blockSize) * c.blockSize)
      c.blockSize).filter (fun j => j ≠ i)).filterMap
      (fun j => (((Fec.Encode c b).map some).set i none).getD j none) =
      ((b.drop ((i / c.blockSize) * c.blockSize)).take c.blockSize).take
        (i % c.blockSize) ++
      ((b.drop ((i / c.blockSize) * c.blockSize)).take c.blockSize).drop
        (i % c.blockSize + 1) := by
    rw [filter_ne_middle _ _ i hbs_le_i hlt_bs, hlib, List.filterMap_append]
    have hmapL : (List.range' ((i / c.blockSize) * c.blockSize)
        (i % c.blockSize)).filterMap
        (fun j => (((Fec.Encode c b).map some).set i none).getD j none) =
        (List.range' ((i / c.blockSize) * c.blockSize)
          (i % c.blockSize)).map (fun j => b.getD j []) := by
      refine filterMap_eq_map_of_some _ _ _ fun j hj => ?_
      have hb2 := List.mem_range'_1.mp hj
      exact hgetj j (by omega) (by omega)
    have hmapR : (List.range' (i + 1) ((i / c.blockSize) * c.blockSize +
        c.blockSize - i - 1)).filterMap
        (fun j => (((Fec.Encode c b).map some).set i none).getD j none) =
        (List.range' (i + 1) ((i / c.blockSize) * c.blockSize + c.blockSize -
          i - 1)).map (fun j => b.getD j []) := by
      refine filterMap_eq_map_of_some _ _ _ fun j hj => ?_
      have hb2 := List.mem_range'_1.mp hj
      exact hgetj j (by omega) (by omega)
    rw [hmapL, hmapR, hblock _ hidivB, ← List.map_take, ← List.map_drop,
      take_range' _ _ _ (le_of_lt hmodlt),
      drop_range' _ _ _ (Nat.succ_le_of_lt hmodlt)]
    have hidx1 : (i / c.blockSize) * c.blockSize + (i % c.blockSize + 1) =
        i + 1 := by omega
    have hidx2 : c.blockSize - (i % c.blockSize + 1) =
        (i / c.blockSize) * c.blockSize + c.blockSize - i - 1 := by omega
    rw [hidx1, hidx2]
  rw [Fec.tryRecover]
  simp only
  rw [hlenRecv, hnumData, hred]
  dsimp only
  rw [if_neg (by rw [hrpLenJ]; omega)]
  rw [hbyte0]
  rw [if_neg (by rw [hrpLenJ]; omega)]
  rw [hlib]
  rw [if_neg (Nat.not_le.mpr hmodlt)]
  rw [hbyteHi, hbyteLo, horig]
  rw [min_eq_left (by omega)]
  have hBE : (i / c.blockSize) * c.blockSize + c.blockSize -
      (i / c.blockSize) * c.blockSize = c.blockSize := by omega
  rw [hBE, havail]
  have hcore := xorRecover_spec
    ((b.drop ((i / c.blockSize) * c.blockSize)).take c.blockSize)
    (i % c.blockSize) (by rw [hblkB]; exact hmodlt)
  rw [hblkB, hgetblk] at hcore
  exact hcore

theorem decode_entry (c : Fec.Config) (packets : List (Option Packet))
    (lost : List Nat) (i : Nat) (hlen : i < packets.length)
    (hfil : lost.filter (fun j => j / c.blockSize = i / c.blockSize) = [i])
    (hne : lost ≠ []) :
    (Fec.Decode c packets lost).1.getD i none = Fec.tryRecover c packets i := by
  rw [Fec.Decode, if_neg (by simpa [List.isEmpty_iff] using hne)]
  simp only
  rw [getD_map_range_opt _ hlen, if_pos hfil]

/-- Claim C2 (counterexample): with the valid configuration 50% / block
size 2 and the length-1 batch `[[1]]` (shorter than the block size), the
decoder cannot recover the single lost packet: its redundancy-index
arithmetic `numDataPackets = len - len/(blockSize+1)` assumes full
blocks, and for the 2-element stream it computes index 2, which is out
of range, so the block is skipped. -/
theorem fec_single_loss_counterexample :
    Fec.Config.validateOk ⟨50, 2⟩ = true ∧
    (Fec.Decode ⟨50, 2⟩ (((Fec.Encode ⟨50, 2⟩ [[1]]).map some).set 0 none)
      [0]).1.getD 0 none = none ∧
    (Fec.Decode ⟨50, 2⟩ (((Fec.Encode ⟨50, 2⟩ [[1]]).map some).set 0 none)
      [0]).1.getD 0 none ≠ some [1] := by decide

/-- Claim C2 (amended): single-loss recovery holds whenever the batch
length is a (positive) multiple of the block size and every packet is
non-empty and shorter than 65536 bytes: replacing any single entry i of
the encoded stream by None and decoding with lost = {i} recovers exactly
the original packet b[i] at index i. -/
theorem fec_single_loss_recovery (c : Fec.Config) (b : List Packet) (i : Nat)
    (hv : c.validateOk = true) (hp : 0 < c.redundancyPercent)
    (hdvd : c.blockSize ∣ b.length) (hb : b ≠ [])
    (hpk : ∀ p ∈ b, p ≠ [] ∧ p.length < 65536) (hi : i < b.length) :
    (Fec.Decode c (((Fec.Encode c b).map some).set i none) [i]).1.getD i
      none = some (b.getD i []) := by
  have hge : b.length ≤ (Fec.Encode c b).length := by
    rw [Encode_of_pos c b hb hp, List.length_append]
    omega
  have hfil : ([i] : List Nat).filter
      (fun j => j / c.blockSize = i / c.blockSize) = [i] := by simp
  rw [decode_entry c _ [i] i
    (by simp only [List.length_set, List.length_map]; omega) hfil (by simp)]
  exact tryRecover_spec c b i hv hp hdvd hb hpk hi

theorem fec_single_loss_recovery_witness :
    (Fec.Decode ⟨50, 2⟩ (((Fec.Encode ⟨50, 2⟩ [[1, 2], [3]]).map some).set 0
      none) [0]).1.getD 0 none = some [1, 2] :=
  fec_single_loss_recovery ⟨50, 2⟩ [[1, 2], [3]] 0 (by decide) (by decide)
    (by decide) (by decide) (by decide) (by decide)
